import Mathlib

set_option linter.unusedSectionVars false

/-!
Verification development for the rational-function analyzer
(`rational_analyzer.py`, class `RationalAnalyzer`).

The analyzer manipulates single-variable polynomial expressions through a
computer-algebra library (parsing, degree, leading coefficient, gcd,
exact division, root solving, limits at infinity).  We embed polynomials
as little-endian coefficient lists over an arbitrary linear ordered field
`K` (the source works over the real algebraic numbers; all statements are
proved for every such field and concrete computations are run at `K = ℚ`).
Root solving (`sympy.solve` followed by the `is_real` filter) is an
external oracle; the analyzer's operations take it as an explicit
function parameter `solve : List K → List K`, and theorems assume of it
exactly what the library guarantees at the call sites they need.
-/

section PolyBasics

variable {K : Type} [LinearOrderedField K] [DecidableEq K]

/-- Coefficient of `x^i` in the coefficient list `p` (0 beyond the end). -/
def coeffP (p : List K) (i : Nat) : K := p.getD i 0

/-- Remove high-order zero coefficients, producing the canonical list of a
polynomial: the result is either empty (the zero polynomial) or ends in a
nonzero leading coefficient. -/
def trimP : List K → List K
  | [] => []
  | c :: p => if trimP p = [] ∧ c = 0 then [] else c :: trimP p

/-- Horner evaluation of a coefficient list at a point, the embedding of
`expr.subs(x, t)` for a polynomial expression. -/
def evalP (p : List K) (t : K) : K := p.foldr (fun c acc => c + t * acc) 0

/-- Pointwise sum of two coefficient lists. -/
def addP : List K → List K → List K
  | [], q => q
  | p, [] => p
  | a :: p, b :: q => (a + b) :: addP p q

/-- Pointwise negation. -/
def negP (p : List K) : List K := p.map (fun c => -c)

/-- Pointwise difference. -/
def subP (p q : List K) : List K := addP p (negP q)

/-- Multiplication by the scalar `c`. -/
def scaleC (c : K) (p : List K) : List K := p.map (fun a => c * a)

/-- Multiplication by the monomial `c * x^k`. -/
def mulMonom (k : Nat) (c : K) (p : List K) : List K :=
  List.replicate k 0 ++ scaleC c p

/-- Polynomial product. -/
def mulP : List K → List K → List K
  | [], _ => []
  | a :: p, q => addP (scaleC a q) (0 :: mulP p q)

/-- Leading coefficient (coefficient of the highest-degree term), the
embedding of `sympy.LC`; 0 for the zero polynomial. -/
def lcP (p : List K) : K := (trimP p).getD ((trimP p).length - 1) 0

@[simp] theorem evalP_nil (t : K) : evalP ([] : List K) t = 0 := rfl

@[simp] theorem evalP_cons (c : K) (p : List K) (t : K) :
    evalP (c :: p) t = c + t * evalP p t := rfl

theorem evalP_addP (p q : List K) (t : K) :
    evalP (addP p q) t = evalP p t + evalP q t := by
  induction p generalizing q with
  | nil => simp [addP]
  | cons a p ih =>
    cases q with
    | nil => simp [addP]
    | cons b q => simp [addP, ih]; ring

theorem evalP_negP (p : List K) (t : K) : evalP (negP p) t = -evalP p t := by
  induction p with
  | nil => simp [negP]
  | cons a p ih => simp [negP] at ih ⊢; rw [ih]; ring

theorem evalP_subP (p q : List K) (t : K) :
    evalP (subP p q) t = evalP p t - evalP q t := by
  rw [subP, evalP_addP, evalP_negP]; ring

theorem evalP_scaleC (c : K) (p : List K) (t : K) :
    evalP (scaleC c p) t = c * evalP p t := by
  induction p with
  | nil => simp [scaleC]
  | cons a p ih => simp [scaleC] at ih ⊢; rw [ih]; ring

theorem evalP_replicate_append (k : Nat) (q : List K) (t : K) :
    evalP (List.replicate k 0 ++ q) t = t ^ k * evalP q t := by
  induction k with
  | zero => simp
  | succ k ih => simp [List.replicate, ih, pow_succ]; ring

theorem evalP_mulMonom (k : Nat) (c : K) (p : List K) (t : K) :
    evalP (mulMonom k c p) t = c * t ^ k * evalP p t := by
  rw [mulMonom, evalP_replicate_append, evalP_scaleC]; ring

theorem evalP_mulP (p q : List K) (t : K) :
    evalP (mulP p q) t = evalP p t * evalP q t := by
  induction p with
  | nil => simp [mulP]
  | cons a p ih => simp [mulP, evalP_addP, evalP_scaleC, ih]; ring

theorem evalP_trimP (p : List K) (t : K) : evalP (trimP p) t = evalP p t := by
  induction p with
  | nil => rfl
  | cons c p ih =>
    rw [trimP]
    by_cases h : trimP p = [] ∧ c = 0
    · rw [if_pos h]
      have h2 : evalP p t = 0 := by rw [← ih, h.1, evalP_nil]
      simp [h.1, h.2, h2]
    · rw [if_neg h, evalP_cons, ih, evalP_cons]

theorem evalP_of_trimP_nil (p : List K) (t : K) (h : trimP p = []) :
    evalP p t = 0 := by
  rw [← evalP_trimP, h, evalP_nil]

theorem trimP_trimP (p : List K) : trimP (trimP p) = trimP p := by
  induction p with
  | nil => rfl
  | cons c p ih =>
    rw [trimP]
    by_cases h : trimP p = [] ∧ c = 0
    · rw [if_pos h]; rfl
    · rw [if_neg h, trimP, ih, if_neg h]

@[simp] theorem coeffP_nil (i : Nat) : coeffP ([] : List K) i = 0 := by
  cases i <;> rfl

@[simp] theorem coeffP_cons_zero (a : K) (p : List K) : coeffP (a :: p) 0 = a := rfl

@[simp] theorem coeffP_cons_succ (a : K) (p : List K) (i : Nat) :
    coeffP (a :: p) (i + 1) = coeffP p i := rfl

theorem coeffP_addP (p q : List K) (i : Nat) :
    coeffP (addP p q) i = coeffP p i + coeffP q i := by
  induction p generalizing q i with
  | nil => simp [addP]
  | cons a p ih =>
    cases q with
    | nil => simp [addP]
    | cons b q => cases i with
      | zero => simp [addP]
      | succ i => simp [addP, ih]

theorem coeffP_negP (p : List K) (i : Nat) : coeffP (negP p) i = -coeffP p i := by
  induction p generalizing i with
  | nil => simp [negP]
  | cons a p ih =>
    cases i with
    | zero => simp [negP]
    | succ i =>
      have : negP (a :: p) = (-a) :: negP p := rfl
      rw [this, coeffP_cons_succ, coeffP_cons_succ, ih]

theorem coeffP_subP (p q : List K) (i : Nat) :
    coeffP (subP p q) i = coeffP p i - coeffP q i := by
  rw [subP, coeffP_addP, coeffP_negP]; ring

theorem coeffP_scaleC (c : K) (p : List K) (i : Nat) :
    coeffP (scaleC c p) i = c * coeffP p i := by
  induction p generalizing i with
  | nil => simp [scaleC]
  | cons a p ih =>
    cases i with
    | zero => simp [scaleC]
    | succ i =>
      have : scaleC c (a :: p) = (c * a) :: scaleC c p := rfl
      rw [this, coeffP_cons_succ, coeffP_cons_succ, ih]

theorem coeffP_replicate_append (k : Nat) (q : List K) (i : Nat) :
    coeffP (List.replicate k (0 : K) ++ q) i =
      if i < k then 0 else coeffP q (i - k) := by
  induction k generalizing i with
  | zero => simp
  | succ k ih =>
    cases i with
    | zero => simp [List.replicate]
    | succ i =>
      have h1 : List.replicate (k + 1) (0 : K) ++ q =
          0 :: (List.replicate k 0 ++ q) := by simp [List.replicate]
      rw [h1, coeffP_cons_succ, ih]
      by_cases h : i < k
      · rw [if_pos h, if_pos (by omega)]
      · rw [if_neg h, if_neg (by omega)]
        congr 1
        omega

theorem coeffP_mulMonom (k : Nat) (c : K) (p : List K) (i : Nat) :
    coeffP (mulMonom k c p) i = if i < k then 0 else c * coeffP p (i - k) := by
  rw [mulMonom, coeffP_replicate_append]
  by_cases h : i < k
  · rw [if_pos h, if_pos h]
  · rw [if_neg h, if_neg h, coeffP_scaleC]

theorem coeffP_of_length_le (p : List K) (i : Nat) (h : p.length ≤ i) :
    coeffP p i = 0 := by
  rw [coeffP, List.getD_eq_default]
  exact h

theorem trimP_eq_nil_of_coeff (p : List K) (h : ∀ i, coeffP p i = 0) :
    trimP p = [] := by
  induction p with
  | nil => rfl
  | cons c p ih =>
    have hc : c = 0 := h 0
    have hp : trimP p = [] := ih (fun i => h (i + 1))
    rw [trimP, if_pos ⟨hp, hc⟩]

theorem trimP_length_le_of_coeff (p : List K) (j : Nat)
    (h : ∀ i, j ≤ i → coeffP p i = 0) : (trimP p).length ≤ j := by
  induction p generalizing j with
  | nil => simp [trimP]
  | cons c p ih =>
    cases j with
    | zero =>
      have : trimP (c :: p) = [] :=
        trimP_eq_nil_of_coeff _ (fun i => h i (Nat.zero_le i))
      simp [this]
    | succ j =>
      rw [trimP]
      by_cases hb : trimP p = [] ∧ c = 0
      · rw [if_pos hb]; simp
      · rw [if_neg hb]
        have hp : (trimP p).length ≤ j :=
          ih j (fun i hi => h (i + 1) (by omega))
        simpa using hp

theorem trimP_top_ne_zero (p : List K) (h : trimP p ≠ []) :
    (trimP p).getD ((trimP p).length - 1) 0 ≠ 0 := by
  induction p with
  | nil => exact absurd rfl h
  | cons c p ih =>
    rw [trimP] at h ⊢
    by_cases hb : trimP p = [] ∧ c = 0
    · exact absurd (if_pos hb) h
    · rw [if_neg hb]
      cases hq : trimP p with
      | nil =>
        have hc : c ≠ 0 := fun hc => hb ⟨hq, hc⟩
        simpa using hc
      | cons d q =>
        have h2 := ih (by rw [hq]; simp)
        rw [hq] at h2
        simpa using h2

end PolyBasics

section PolyDiv

variable {K : Type} [LinearOrderedField K] [DecidableEq K]

/-- Euclidean division step machine for coefficient lists: repeatedly
cancel the top coefficient of the dividend against the divisor.  Returns
(quotient, remainder); the remainder is always in trimmed form.  This is
the embedding of the exact polynomial division and remainder arithmetic
that `sympy.gcd` and `sympy.simplify(p / g)` perform internally. -/
def divModAux : Nat → List K → List K → List K × List K
  | 0, a, _ => ([], trimP a)
  | f + 1, a, b =>
    if (trimP a).length < (trimP b).length ∨ (trimP b).length = 0 then
      ([], trimP a)
    else
      let k := (trimP a).length - (trimP b).length
      let q0 := (trimP a).getD ((trimP a).length - 1) 0 /
        (trimP b).getD ((trimP b).length - 1) 0
      let r := divModAux f (subP (trimP a) (mulMonom k q0 (trimP b))) b
      (addP (mulMonom k q0 [1]) r.1, r.2)

/-- Quotient of polynomial division (exact when the divisor divides the
dividend, as in `sympy.simplify(self.numerator / common_factors)`). -/
def divP (a b : List K) : List K := (divModAux (a.length + 1) a b).1

/-- Remainder of polynomial division. -/
def modP (a b : List K) : List K := (divModAux (a.length + 1) a b).2

/-- Euclidean gcd loop on coefficient lists. -/
def gcdAux : Nat → List K → List K → List K
  | 0, a, _ => trimP a
  | f + 1, a, b => if trimP b = [] then trimP a else gcdAux f b (modP a b)

/-- Monic polynomial gcd, the embedding of `sympy.gcd` on the two stored
polynomial expressions.  (sympy normalizes the gcd by content/sign; the
normalizations agree up to a nonzero constant factor, which affects none
of the analyzer's observable outputs, and a monic gcd is constant exactly
when sympy's is.) -/
def polyGcd (a b : List K) : List K :=
  if gcdAux (b.length + 1) a b = [] then []
  else
    scaleC (((gcdAux (b.length + 1) a b).getD
      ((gcdAux (b.length + 1) a b).length - 1) 0)⁻¹)
      (gcdAux (b.length + 1) a b)

/-- Semantic divisibility: `d` divides `p` as functions on `K`. -/
def dvdE (d p : List K) : Prop :=
  ∃ q : List K, ∀ t : K, evalP p t = evalP d t * evalP q t

theorem dvdE_trimP_self (a : List K) : dvdE (trimP a) a := by
  refine ⟨[1], fun t => ?_⟩
  rw [evalP_trimP]
  simp

theorem dvdE_of_trimP_nil (d b : List K) (h : trimP b = []) : dvdE d b := by
  refine ⟨[], fun t => ?_⟩
  rw [evalP_of_trimP_nil b t h, evalP_nil, mul_zero]

theorem trimP_length_le (p : List K) : (trimP p).length ≤ p.length := by
  induction p with
  | nil => simp [trimP]
  | cons c p ih =>
    rw [trimP]
    by_cases h : trimP p = [] ∧ c = 0
    · rw [if_pos h]; simp
    · rw [if_neg h]; simpa using ih

theorem divModAux_eval (f : Nat) (b : List K) (t : K) :
    ∀ a : List K, evalP a t =
      evalP b t * evalP (divModAux f a b).1 t + evalP (divModAux f a b).2 t := by
  induction f with
  | zero =>
    intro a
    simp [divModAux, evalP_trimP]
  | succ f ih =>
    intro a
    by_cases h : (trimP a).length < (trimP b).length ∨ (trimP b).length = 0
    · rw [divModAux, if_pos h]
      simp [evalP_trimP]
    · rw [divModAux, if_neg h]
      have hIH := ih (subP (trimP a)
        (mulMonom ((trimP a).length - (trimP b).length)
          ((trimP a).getD ((trimP a).length - 1) 0 /
            (trimP b).getD ((trimP b).length - 1) 0) (trimP b)))
      rw [evalP_subP, evalP_trimP, evalP_mulMonom, evalP_trimP] at hIH
      simp only [evalP_addP, evalP_mulMonom, evalP_cons, evalP_nil]
      linear_combination hIH

theorem divModAux_snd_trimP (f : Nat) (b : List K) :
    ∀ a : List K, trimP (divModAux f a b).2 = (divModAux f a b).2 := by
  induction f with
  | zero => intro a; simp [divModAux, trimP_trimP]
  | succ f ih =>
    intro a
    by_cases h : (trimP a).length < (trimP b).length ∨ (trimP b).length = 0
    · rw [divModAux, if_pos h]
      exact trimP_trimP _
    · rw [divModAux, if_neg h]
      exact ih _

theorem cancel_top (a b : List K) (hb : trimP b ≠ [])
    (hle : (trimP b).length ≤ (trimP a).length) :
    (trimP (subP (trimP a) (mulMonom ((trimP a).length - (trimP b).length)
      ((trimP a).getD ((trimP a).length - 1) 0 /
        (trimP b).getD ((trimP b).length - 1) 0) (trimP b)))).length ≤
      (trimP a).length - 1 := by
  have hm : 1 ≤ (trimP b).length := by
    cases hq : trimP b with
    | nil => exact absurd hq hb
    | cons d q => simp
  have hn : 1 ≤ (trimP a).length := le_trans hm hle
  have hlb : (trimP b).getD ((trimP b).length - 1) 0 ≠ 0 := trimP_top_ne_zero b hb
  apply trimP_length_le_of_coeff
  intro i hi
  rw [coeffP_subP, coeffP_mulMonom]
  rcases Nat.lt_or_ge i (trimP a).length with hcase | hcase
  · have hieq : i = (trimP a).length - 1 := by omega
    have hnotlt : ¬ i < (trimP a).length - (trimP b).length := by omega
    rw [if_neg hnotlt]
    have hidx : i - ((trimP a).length - (trimP b).length) = (trimP b).length - 1 := by
      omega
    rw [hidx, hieq]
    have h1 : coeffP (trimP a) ((trimP a).length - 1) =
        (trimP a).getD ((trimP a).length - 1) 0 := rfl
    have h2 : coeffP (trimP b) ((trimP b).length - 1) =
        (trimP b).getD ((trimP b).length - 1) 0 := rfl
    rw [h1, h2, div_mul_cancel₀ _ hlb, sub_self]
  · have h0 : coeffP (trimP a) i = 0 := coeffP_of_length_le _ _ hcase
    have hnotlt : ¬ i < (trimP a).length - (trimP b).length := by omega
    rw [if_neg hnotlt, h0]
    have h1 : coeffP (trimP b) (i - ((trimP a).length - (trimP b).length)) = 0 := by
      apply coeffP_of_length_le
      omega
    rw [h1, mul_zero, sub_zero]

theorem divModAux_snd_length (f : Nat) (b : List K) (hb : trimP b ≠ []) :
    ∀ a : List K, (trimP a).length ≤ f + ((trimP b).length - 1) →
      ((divModAux f a b).2).length < (trimP b).length := by
  have hm : 1 ≤ (trimP b).length := by
    cases hq : trimP b with
    | nil => exact absurd hq hb
    | cons d q => simp
  induction f with
  | zero =>
    intro a hf
    simp only [divModAux]
    omega
  | succ f ih =>
    intro a hf
    by_cases h : (trimP a).length < (trimP b).length ∨ (trimP b).length = 0
    · have h2 : (trimP a).length < (trimP b).length := by omega
      simp only [divModAux, if_pos h]
      exact h2
    · rw [divModAux, if_neg h]
      push_neg at h
      apply ih
      have hc := cancel_top a b hb h.1
      omega

theorem gcdAux_trimP (f : Nat) : ∀ a b : List K,
    trimP (gcdAux f a b) = gcdAux f a b := by
  induction f with
  | zero => intro a b; simp [gcdAux, trimP_trimP]
  | succ f ih =>
    intro a b
    by_cases h : trimP b = []
    · rw [gcdAux, if_pos h]
      exact trimP_trimP _
    · rw [gcdAux, if_neg h]
      exact ih _ _

theorem gcdAux_dvdE (f : Nat) : ∀ a b : List K, (trimP b).length ≤ f →
    dvdE (gcdAux f a b) a ∧ dvdE (gcdAux f a b) b := by
  induction f with
  | zero =>
    intro a b hf
    have hb : trimP b = [] := List.length_eq_zero.mp (Nat.le_zero.mp hf)
    rw [gcdAux]
    exact ⟨dvdE_trimP_self a, dvdE_of_trimP_nil _ b hb⟩
  | succ f ih =>
    intro a b hf
    by_cases h : trimP b = []
    · rw [gcdAux, if_pos h]
      exact ⟨dvdE_trimP_self a, dvdE_of_trimP_nil _ b h⟩
    · rw [gcdAux, if_neg h]
      have hmod : trimP (modP a b) = modP a b := divModAux_snd_trimP _ b a
      have hlen : (modP a b).length < (trimP b).length := by
        apply divModAux_snd_length (a.length + 1) b h a
        have := trimP_length_le a
        omega
      have hrec : (trimP (modP a b)).length ≤ f := by
        rw [hmod]; omega
      obtain ⟨hb2, hr2⟩ := ih b (modP a b) hrec
      refine ⟨?_, hb2⟩
      obtain ⟨qb, hqb⟩ := hb2
      obtain ⟨qr, hqr⟩ := hr2
      refine ⟨addP (mulP qb (divModAux (a.length + 1) a b).1) qr, fun t => ?_⟩
      have hdm := divModAux_eval (a.length + 1) b t a
      have hmp : (divModAux (a.length + 1) a b).2 = modP a b := rfl
      rw [hmp] at hdm
      rw [evalP_addP, evalP_mulP, hdm, hqb t, hqr t]
      ring

theorem polyGcd_dvdE (a b : List K) : dvdE (polyGcd a b) a ∧ dvdE (polyGcd a b) b := by
  have hfu : (trimP b).length ≤ b.length + 1 := le_trans (trimP_length_le b) (by omega)
  obtain ⟨ha, hb⟩ := gcdAux_dvdE (b.length + 1) a b hfu
  by_cases hg : gcdAux (b.length + 1) a b = []
  · rw [polyGcd, if_pos hg]
    rw [hg] at ha hb
    exact ⟨ha, hb⟩
  · have hgt : trimP (gcdAux (b.length + 1) a b) = gcdAux (b.length + 1) a b :=
      gcdAux_trimP _ a b
    have hc : (gcdAux (b.length + 1) a b).getD
        ((gcdAux (b.length + 1) a b).length - 1) 0 ≠ 0 := by
      have := trimP_top_ne_zero (gcdAux (b.length + 1) a b) (by rw [hgt]; exact hg)
      rw [hgt] at this
      exact this
    rw [polyGcd, if_neg hg]
    have hone : ((gcdAux (b.length + 1) a b).getD
        ((gcdAux (b.length + 1) a b).length - 1) 0)⁻¹ *
        (gcdAux (b.length + 1) a b).getD
          ((gcdAux (b.length + 1) a b).length - 1) 0 = 1 := inv_mul_cancel₀ hc
    constructor
    · obtain ⟨q, hq⟩ := ha
      refine ⟨scaleC ((gcdAux (b.length + 1) a b).getD
        ((gcdAux (b.length + 1) a b).length - 1) 0) q, fun t => ?_⟩
      rw [evalP_scaleC, evalP_scaleC, hq t]
      linear_combination (-(evalP (gcdAux (b.length + 1) a b) t * evalP q t)) * hone
    · obtain ⟨q, hq⟩ := hb
      refine ⟨scaleC ((gcdAux (b.length + 1) a b).getD
        ((gcdAux (b.length + 1) a b).length - 1) 0) q, fun t => ?_⟩
      rw [evalP_scaleC, evalP_scaleC, hq t]
      linear_combination (-(evalP (gcdAux (b.length + 1) a b) t * evalP q t)) * hone

theorem dvdE_root (d p : List K) (h : dvdE d p) (t : K) (ht : evalP d t = 0) :
    evalP p t = 0 := by
  obtain ⟨q, hq⟩ := h
  rw [hq t, ht, zero_mul]

/-- Insert into a sorted list (used to embed Python's `sorted`). -/
def insertS (x : K) : List K → List K
  | [] => [x]
  | y :: t => if x ≤ y then x :: y :: t else y :: insertS x t

/-- Insertion sort, the embedding of Python's `sorted` on a list of field
elements. -/
def sortK : List K → List K
  | [] => []
  | x :: t => insertS x (sortK t)

theorem mem_insertS (x a : K) (l : List K) :
    a ∈ insertS x l ↔ a = x ∨ a ∈ l := by
  induction l with
  | nil => simp [insertS]
  | cons y t ih =>
    rw [insertS]
    by_cases h : x ≤ y
    · rw [if_pos h]; simp
    · rw [if_neg h]
      simp only [List.mem_cons, ih]
      tauto

theorem mem_sortK (a : K) (l : List K) : a ∈ sortK l ↔ a ∈ l := by
  induction l with
  | nil => simp [sortK]
  | cons x t ih =>
    rw [sortK, mem_insertS, ih]
    simp

/-- Monomial power of a coefficient list. -/
def powP (p : List K) : Nat → List K
  | 0 => [1]
  | n + 1 => mulP p (powP p n)

end PolyDiv

section ExprParsing

/-- Token alphabet of the polynomial expression grammar accepted by the
analyzer's input contract (`+ - * / **`, parentheses, integer literals,
the variable token `x`). -/
inductive Tok where
  | tint (n : Nat)
  | tvar
  | tadd
  | tsub
  | tmul
  | tdiv
  | tpow
  | tlp
  | trp
deriving DecidableEq, Repr

/-- Read a maximal run of decimal digits. -/
def readNum : List Char → Nat → Nat × List Char
  | [], acc => (acc, [])
  | c :: cs, acc =>
    if c.isDigit then readNum cs (acc * 10 + (c.toNat - 48))
    else (acc, c :: cs)

/-- Tokenizer for the expression grammar; any character outside the
grammar makes the whole input fail (the embedding of a `sympify` parse
error). -/
def tokenizeAux : Nat → List Char → Option (List Tok)
  | 0, _ => none
  | _ + 1, [] => some []
  | fuel + 1, c :: cs =>
    if c = ' ' then tokenizeAux fuel cs
    else if c = 'x' then (tokenizeAux fuel cs).map (Tok.tvar :: ·)
    else if c = '+' then (tokenizeAux fuel cs).map (Tok.tadd :: ·)
    else if c = '-' then (tokenizeAux fuel cs).map (Tok.tsub :: ·)
    else if c = '/' then (tokenizeAux fuel cs).map (Tok.tdiv :: ·)
    else if c = '(' then (tokenizeAux fuel cs).map (Tok.tlp :: ·)
    else if c = ')' then (tokenizeAux fuel cs).map (Tok.trp :: ·)
    else if c = '*' then
      match cs with
      | '*' :: cs2 => (tokenizeAux fuel cs2).map (Tok.tpow :: ·)
      | _ => (tokenizeAux fuel cs).map (Tok.tmul :: ·)
    else if c.isDigit then
      (tokenizeAux fuel (readNum (c :: cs) 0).2).map (Tok.tint (readNum (c :: cs) 0).1 :: ·)
    else none

/-- Tokenize a whole input string. -/
def tokenize (s : String) : Option (List Tok) := tokenizeAux (s.length + 1) s.toList

variable {K : Type} [LinearOrderedField K] [DecidableEq K]

mutual

/-- Expressions: sums and differences of terms (left associative). -/
def parseE : Nat → List Tok → Option (List K × List Tok)
  | 0, _ => none
  | f + 1, toks =>
    match parseT f toks with
    | some (p, rest) => parseEL f p rest
    | none => none

/-- Loop of `parseE`, consuming `+ term` / `- term` continuations. -/
def parseEL : Nat → List K → List Tok → Option (List K × List Tok)
  | 0, _, _ => none
  | f + 1, acc, toks =>
    match toks with
    | Tok.tadd :: rest =>
      match parseT f rest with
      | some (p, rest2) => parseEL f (addP acc p) rest2
      | none => none
    | Tok.tsub :: rest =>
      match parseT f rest with
      | some (p, rest2) => parseEL f (subP acc p) rest2
      | none => none
    | _ => some (acc, toks)

/-- Terms: products and quotients of signed factors (left associative).
Division is accepted only by a nonzero constant, which keeps the parsed
result a polynomial: this is `sympify` restricted to the input contract
of the specification (single-variable polynomial expressions with integer
and rational coefficients). -/
def parseT : Nat → List Tok → Option (List K × List Tok)
  | 0, _ => none
  | f + 1, toks =>
    match parseF f toks with
    | some (p, rest) => parseTL f p rest
    | none => none

/-- Loop of `parseT`, consuming `* factor` / `/ factor` continuations. -/
def parseTL : Nat → List K → List Tok → Option (List K × List Tok)
  | 0, _, _ => none
  | f + 1, acc, toks =>
    match toks with
    | Tok.tmul :: rest =>
      match parseF f rest with
      | some (p, rest2) => parseTL f (mulP acc p) rest2
      | none => none
    | Tok.tdiv :: rest =>
      match parseF f rest with
      | some (p, rest2) =>
        match trimP p with
        | [c] => parseTL f (scaleC c⁻¹ acc) rest2
        | _ => none
      | none => none
    | _ => some (acc, toks)

/-- Factors: an optional run of unary signs applied to a power. -/
def parseF : Nat → List Tok → Option (List K × List Tok)
  | 0, _ => none
  | f + 1, toks =>
    match toks with
    | Tok.tsub :: rest =>
      match parseF f rest with
      | some (p, rest2) => some (negP p, rest2)
      | none => none
    | Tok.tadd :: rest => parseF f rest
    | _ => parsePw f toks

/-- Powers: an atom optionally raised to a literal natural exponent. -/
def parsePw : Nat → List Tok → Option (List K × List Tok)
  | 0, _ => none
  | f + 1, toks =>
    match parseAtomT f toks with
    | some (p, Tok.tpow :: rest) =>
      match rest with
      | Tok.tint n :: rest2 => some (powP p n, rest2)
      | _ => none
    | r => r

/-- Atoms: integer literals, the variable `x`, and parenthesized
expressions. -/
def parseAtomT : Nat → List Tok → Option (List K × List Tok)
  | 0, _ => none
  | f + 1, toks =>
    match toks with
    | Tok.tint n :: rest => some ([(n : K)], rest)
    | Tok.tvar :: rest => some ([0, 1], rest)
    | Tok.tlp :: rest =>
      match parseE f rest with
      | some (p, Tok.trp :: rest2) => some (p, rest2)
      | _ => none
    | _ => none

end

/-- Parse an input string into a polynomial coefficient list, requiring
the whole token stream to be consumed.  This models `sympy.sympify` on
the specification's input contract (section 6: a valid single-variable
polynomial expression, or malformed input, which fails). -/
def sympify (s : String) : Option (List K) :=
  match tokenize s with
  | none => none
  | some toks =>
    match parseE (5 * toks.length + 10) toks with
    | some (p, []) => some p
    | _ => none

end ExprParsing

section Analyzer

variable {K : Type} [LinearOrderedField K] [DecidableEq K]

/-- State of a constructed `RationalAnalyzer` object: the parsed
numerator and denominator expressions, the validity flag and the error
message set by `__init__`.  (The derived attribute
`self.function = numerator / denominator` is used by the source only for
evaluation at a point and limits; both are embedded directly through the
two stored polynomials.) -/
structure RationalAnalyzer (K : Type) where
  numerator : List K
  denominator : List K
  valid : Bool
  error_message : Option String

/-- Embedding of `RationalAnalyzer.__init__`: parse both input strings;
on any parse failure mark the object invalid and record a message.  No
exception escapes, and no further check (in particular no zero-denominator
check) is performed. -/
def mkAnalyzer (numerator_str denominator_str : String) : RationalAnalyzer K :=
  match sympify numerator_str, sympify denominator_str with
  | some np, some dp =>
    { numerator := np, denominator := dp, valid := true, error_message := none }
  | _, _ =>
    { numerator := [], denominator := [], valid := false,
      error_message := some "Invalid function" }

/-- The float tolerance `1e-10` used by `is_hole`. -/
def holeTol (K : Type) [LinearOrderedField K] : K := 1 / 10000000000

/-- Embedding of `find_holes`.  `solve` is the external root oracle
(`sympy.solve` composed with the `is_real` filter of the loop).  The gcd
of the stored polynomials is computed; if it is the constant 1 there are
no holes; otherwise each real root `r` of the gcd contributes the hole
`(r, num/g (r) / (den/g (r)))`.  The y-value conversion `float(...)`
raises when the reduced denominator vanishes at a root (a `zoo` value),
and the surrounding `try` then discards all holes; the `.any` guard
models exactly that all-or-nothing failure path. -/
def RationalAnalyzer.find_holes (a : RationalAnalyzer K)
    (solve : List K → List K) : List (K × K) :=
  if a.valid = false then []
  else if polyGcd a.numerator a.denominator = [1] then []
  else if (solve (polyGcd a.numerator a.denominator)).any
      (fun r => decide (evalP (divP a.denominator (polyGcd a.numerator a.denominator)) r = 0))
  then []
  else
    (solve (polyGcd a.numerator a.denominator)).map
      (fun r =>
        (r, evalP (divP a.numerator (polyGcd a.numerator a.denominator)) r /
            evalP (divP a.denominator (polyGcd a.numerator a.denominator)) r))

/-- Embedding of `is_hole`: recompute the holes and compare the
x-coordinate within the `1e-10` tolerance. -/
def RationalAnalyzer.is_hole (a : RationalAnalyzer K)
    (solve : List K → List K) (x_val : K) : Bool :=
  (a.find_holes solve).any (fun hole => decide (|hole.1 - x_val| < holeTol K))

/-- Embedding of `find_vertical_asymptotes`: real roots of the
denominator that are not holes, sorted ascending. -/
def RationalAnalyzer.find_vertical_asymptotes (a : RationalAnalyzer K)
    (solve : List K → List K) : List K :=
  if a.valid = false then []
  else sortK ((solve a.denominator).filter (fun root => !(a.is_hole solve root)))

/-- Embedding of `find_x_intercepts`: real roots of the numerator that
are not holes, sorted ascending. -/
def RationalAnalyzer.find_x_intercepts (a : RationalAnalyzer K)
    (solve : List K → List K) : List K :=
  if a.valid = false then []
  else sortK ((solve a.numerator).filter (fun root => !(a.is_hole solve root)))

/-- Degree of a stored polynomial, the embedding of `sympy.degree`
(`none` plays the role of the `-oo` degree of the zero polynomial). -/
def degB (p : List K) : Option Nat :=
  if trimP p = [] then none else some ((trimP p).length - 1)

/-- Embedding of the comparison `num_degree < den_degree` under sympy's
`-oo` ordering. -/
def degLtB (p q : List K) : Bool :=
  match degB p, degB q with
  | none, none => false
  | none, some _ => true
  | some _, none => false
  | some a, some b => decide (a < b)

/-- Embedding of the comparison `num_degree == den_degree` under sympy's
`-oo` ordering. -/
def degEqB (p q : List K) : Bool :=
  match degB p, degB q with
  | none, none => true
  | some a, some b => decide (a = b)
  | _, _ => false

/-- Result of the horizontal-asymptote query: a numeric value, or the
float `nan` produced by `float(0/0)` in the doubly-degenerate case. -/
inductive HAVal (K : Type) where
  | val (q : K)
  | nan
deriving DecidableEq, Repr

/-- Embedding of `find_horizontal_asymptote`: the degree-comparison law.
In the equal-degree branch the source computes `float(LC(num)/LC(den))`;
when both stored polynomials are zero this is `float(nan)` (returned),
and a `zoo` value would make `float` raise, caught as `None`. -/
def RationalAnalyzer.find_horizontal_asymptote (a : RationalAnalyzer K) :
    Option (HAVal K) :=
  if a.valid = false then none
  else if degLtB a.numerator a.denominator then some (.val 0)
  else if degEqB a.numerator a.denominator then
    (if lcP a.denominator = 0 then
      (if lcP a.numerator = 0 then some .nan else none)
    else some (.val (lcP a.numerator / lcP a.denominator)))
  else none

/-- Embedding of `find_y_intercept`: evaluate the denominator at 0; if
nonzero, return the value of the stored ratio at 0. -/
def RationalAnalyzer.find_y_intercept (a : RationalAnalyzer K) : Option K :=
  if a.valid = false then none
  else if evalP a.denominator 0 = 0 then none
  else some (evalP a.numerator 0 / evalP a.denominator 0)

/-- One end-behavior component: a finite value converted by `float`, or
the string fallback `str(limit)` for a non-finite limit (`oo`, `-oo`,
sympy's `zoo` complex infinity, or `nan`). -/
inductive EndItem (K : Type) where
  | val (q : K)
  | posInf
  | negInf
  | zooSym
  | nanSym
deriving DecidableEq, Repr

/-- Embedding of `sympy.limit(num/den, x, +oo)` on the stored ratio
(`Option`-valued: `none` stands for the limit call raising, the event
the source's surrounding `except` absorbs; on the spec's polynomial
input domain the call is modelled as succeeding everywhere).  For a
nonzero denominator the limit is governed by degree comparison and the
sign of the leading-coefficient ratio.  For a zero denominator the
stored expression `num/0` already evaluated to `nan` (num = 0) or to the
`zoo`-multiple of num (num ≠ 0) at construction time; sympy returns the
variable-free `nan`/`zoo` unchanged and absorbs `zoo * (±oo)` into
`zoo`, both non-finite, so the `str` fallback reports them. -/
def limitAtPos (num den : List K) : Option (EndItem K) :=
  if trimP den = [] then
    (if trimP num = [] then some .nanSym else some .zooSym)
  else if trimP num = [] then some (.val 0)
  else if (trimP num).length < (trimP den).length then some (.val 0)
  else if (trimP num).length = (trimP den).length then
    some (.val (lcP num / lcP den))
  else if 0 < lcP num / lcP den then some .posInf
  else some .negInf

/-- Embedding of `sympy.limit(num/den, x, -oo)`: as `limitAtPos`, with
the sign flipped when the degree difference is odd. -/
def limitAtNeg (num den : List K) : Option (EndItem K) :=
  if trimP den = [] then
    (if trimP num = [] then some .nanSym else some .zooSym)
  else if trimP num = [] then some (.val 0)
  else if (trimP num).length < (trimP den).length then some (.val 0)
  else if (trimP num).length = (trimP den).length then
    some (.val (lcP num / lcP den))
  else if ((trimP num).length - (trimP den).length) % 2 = 0 then
    (if 0 < lcP num / lcP den then some .posInf else some .negInf)
  else
    (if 0 < lcP num / lcP den then some .negInf else some .posInf)

/-- The translation of `analyze_end_behavior`'s single try/except block
around the two limit calls: given the outcome of each call (`none` =
that call raised), either call raising yields `(None, None)` for both
directions, and on success the pair `(limit at -oo, limit at +oo)` is
returned. -/
def endBehaviorHandler (l1 l2 : Option (EndItem K)) :
    Option (EndItem K) × Option (EndItem K) :=
  match l1, l2 with
  | some lp, some ln => (some ln, some lp)
  | _, _ => (none, none)

/-- Embedding of `analyze_end_behavior`: the invalid guard, then the
try/except handler applied to the two limit computations. -/
def RationalAnalyzer.analyze_end_behavior (a : RationalAnalyzer K) :
    Option (EndItem K) × Option (EndItem K) :=
  if a.valid = false then (none, none)
  else
    endBehaviorHandler (limitAtPos a.numerator a.denominator)
      (limitAtNeg a.numerator a.denominator)

/-- The record returned by `get_analysis_summary`: either a single
`error` field, or the six feature fields. -/
inductive Summary (K : Type) where
  | err (msg : String)
  | ok (vertical_asymptotes : List K) (horizontal_asymptote : Option (HAVal K))
      (holes : List (K × K)) (x_intercepts : List K) (y_intercept : Option K)
      (end_behavior : Option (EndItem K) × Option (EndItem K))
deriving DecidableEq

/-- Embedding of `get_analysis_summary`. -/
def RationalAnalyzer.get_analysis_summary (a : RationalAnalyzer K)
    (solve : List K → List K) : Summary K :=
  if a.valid = false then .err (a.error_message.getD "")
  else
    .ok (a.find_vertical_asymptotes solve) a.find_horizontal_asymptote
      (a.find_holes solve) (a.find_x_intercepts solve) a.find_y_intercept
      a.analyze_end_behavior

/-- Names of the analyzer's query operations. -/
inductive Query where
  | qva
  | qha
  | qholes
  | qxi
  | qyi
  | qeb
  | qsummary
deriving DecidableEq

/-- Sum of the result types of the query operations. -/
inductive QueryResult (K : Type) where
  | rva (l : List K)
  | rha (o : Option (HAVal K))
  | rholes (l : List (K × K))
  | rxi (l : List K)
  | ryi (o : Option K)
  | reb (p : Option (EndItem K) × Option (EndItem K))
  | rsum (s : Summary K)
deriving DecidableEq

/-- State-passing form of the query methods: each method reads the
stored attributes and performs no assignment, so the post-state it hands
back is the state it received — the direct translation of the absence of
any attribute write in the source methods. -/
def runQuery (solve : List K → List K) (q : Query) (a : RationalAnalyzer K) :
    QueryResult K × RationalAnalyzer K :=
  match q with
  | .qva => (.rva (a.find_vertical_asymptotes solve), a)
  | .qha => (.rha a.find_horizontal_asymptote, a)
  | .qholes => (.rholes (a.find_holes solve), a)
  | .qxi => (.rxi (a.find_x_intercepts solve), a)
  | .qyi => (.ryi a.find_y_intercept, a)
  | .qeb => (.reb a.analyze_end_behavior, a)
  | .qsummary => (.rsum (a.get_analysis_summary solve), a)

end Analyzer

section ConcreteInstances

/-- Analyzer for the spec scenario numerator `x**2-1`, denominator `x-1`. -/
def anEx7 : RationalAnalyzer ℚ := mkAnalyzer "x**2-1" "x-1"

/-- Root oracle matching `sympy.solve` on the polynomials the `x**2-1`,
`x-1` scenario queries (`x-1`, the gcd `x-1`, and `x**2-1`). -/
def solveEx7 : List ℚ → List ℚ := fun p =>
  if p = [-1, 1] then [1]
  else if p = [-1, 0, 1] then [-1, 1]
  else []

/-- Analyzer for the spec scenario numerator `x+1`, denominator `x-2`. -/
def anEx8 : RationalAnalyzer ℚ := mkAnalyzer "x+1" "x-2"

/-- Root oracle matching `sympy.solve` on the polynomials the `x+1`,
`x-2` scenario queries. -/
def solveEx8 : List ℚ → List ℚ := fun p =>
  if p = [-2, 1] then [2]
  else if p = [1, 1] then [-1]
  else []

/-- Analyzer constructed from numerator `1` and denominator `0`: both
strings parse, so construction succeeds with a zero denominator. -/
def anZeroDen : RationalAnalyzer ℚ := mkAnalyzer "1" "0"

/-- Analyzer constructed from the malformed numerator `x+`. -/
def anBad : RationalAnalyzer ℚ := mkAnalyzer "x+" "x"

end ConcreteInstances

section ConcreteEvaluations

theorem anEx7_eq :
    anEx7 = ⟨[-1, 0, 1], [-1, 1], true, none⟩ := by
  have h1 : tokenize "x**2-1" =
      some [Tok.tvar, Tok.tpow, Tok.tint 2, Tok.tsub, Tok.tint 1] := by decide
  have h2 : tokenize "x-1" = some [Tok.tvar, Tok.tsub, Tok.tint 1] := by decide
  rw [anEx7, mkAnalyzer, sympify, sympify, h1, h2]
  norm_num [parseE, parseEL, parseT, parseTL, parseF, parsePw, parseAtomT,
    powP, mulP, addP, subP, negP, scaleC, trimP]

theorem anEx8_eq :
    anEx8 = ⟨[1, 1], [-2, 1], true, none⟩ := by
  have h1 : tokenize "x+1" = some [Tok.tvar, Tok.tadd, Tok.tint 1] := by decide
  have h2 : tokenize "x-2" = some [Tok.tvar, Tok.tsub, Tok.tint 2] := by decide
  rw [anEx8, mkAnalyzer, sympify, sympify, h1, h2]
  norm_num [parseE, parseEL, parseT, parseTL, parseF, parsePw, parseAtomT,
    powP, mulP, addP, subP, negP, scaleC, trimP]

theorem anZeroDen_eq :
    anZeroDen = ⟨[1], [0], true, none⟩ := by
  have h1 : tokenize "1" = some [Tok.tint 1] := by decide
  have h2 : tokenize "0" = some [Tok.tint 0] := by decide
  rw [anZeroDen, mkAnalyzer, sympify, sympify, h1, h2]
  norm_num [parseE, parseEL, parseT, parseTL, parseF, parsePw, parseAtomT,
    powP, mulP, addP, subP, negP, scaleC, trimP]

theorem sympify_bad_eq : (sympify "x+" : Option (List ℚ)) = none := by
  have h1 : tokenize "x+" = some [Tok.tvar, Tok.tadd] := by decide
  rw [sympify, h1]
  norm_num [parseE, parseEL, parseT, parseTL, parseF, parsePw, parseAtomT,
    powP, mulP, addP, subP, negP, scaleC, trimP]

end ConcreteEvaluations

section QueryLemmas

variable {K : Type} [LinearOrderedField K] [DecidableEq K]

theorem holeTol_pos : 0 < holeTol K := by
  rw [holeTol]
  norm_num

theorem mkAnalyzer_invalid (ns ds : String)
    (h : (sympify ns : Option (List K)) = none ∨
      (sympify ds : Option (List K)) = none) :
    (mkAnalyzer ns ds : RationalAnalyzer K) =
      ⟨[], [], false, some "Invalid function"⟩ := by
  rw [mkAnalyzer]
  rcases h1 : (sympify ns : Option (List K)) with _ | np <;>
    rcases h2 : (sympify ds : Option (List K)) with _ | dp <;>
    rcases h with h | h <;> simp_all

theorem find_holes_mem (a : RationalAnalyzer K) (solve : List K → List K)
    (hx hy : K) (hmem : (hx, hy) ∈ a.find_holes solve) :
    hx ∈ solve (polyGcd a.numerator a.denominator) := by
  rw [RationalAnalyzer.find_holes] at hmem
  split_ifs at hmem with h1 h2 h3
  · simp at hmem
  · simp at hmem
  · simp at hmem
  · obtain ⟨r, hr, heq⟩ := List.mem_map.mp hmem
    injection heq with ha hb
    rw [← ha]
    exact hr

theorem is_hole_of_mem (a : RationalAnalyzer K) (solve : List K → List K)
    (hx hy : K) (hmem : (hx, hy) ∈ a.find_holes solve) :
    a.is_hole solve hx = true := by
  rw [RationalAnalyzer.is_hole, List.any_eq_true]
  refine ⟨(hx, hy), hmem, ?_⟩
  rw [decide_eq_true_eq]
  simpa using holeTol_pos

theorem is_hole_iff (a : RationalAnalyzer K) (solve : List K → List K) (r : K) :
    a.is_hole solve r = true ↔
      ∃ hole ∈ a.find_holes solve, |hole.1 - r| < holeTol K := by
  rw [RationalAnalyzer.is_hole, List.any_eq_true]
  constructor
  · rintro ⟨hole, hmem, hdec⟩
    exact ⟨hole, hmem, decide_eq_true_eq.mp hdec⟩
  · rintro ⟨hole, hmem, hlt⟩
    exact ⟨hole, hmem, decide_eq_true_eq.mpr hlt⟩

theorem mem_find_vertical_asymptotes (a : RationalAnalyzer K)
    (solve : List K → List K) (hval : a.valid = true) (r : K) :
    r ∈ a.find_vertical_asymptotes solve ↔
      r ∈ solve a.denominator ∧ a.is_hole solve r = false := by
  rw [RationalAnalyzer.find_vertical_asymptotes, hval]
  rw [if_neg (by simp), mem_sortK, List.mem_filter]
  simp

theorem mem_find_x_intercepts (a : RationalAnalyzer K)
    (solve : List K → List K) (hval : a.valid = true) (r : K) :
    r ∈ a.find_x_intercepts solve ↔
      r ∈ solve a.numerator ∧ a.is_hole solve r = false := by
  rw [RationalAnalyzer.find_x_intercepts, hval]
  rw [if_neg (by simp), mem_sortK, List.mem_filter]
  simp

end QueryLemmas

section ClaimTheoremsA

variable {K : Type} [LinearOrderedField K] [DecidableEq K]

/-- C2: for every valid pair, `find_horizontal_asymptote` returns 0 when
deg(num) < deg(den) (under the `-oo` degree of the zero polynomial),
returns the ratio of leading coefficients when the degrees are equal (as
degrees of nonzero polynomials), and returns the absent value when
deg(num) > deg(den). -/
theorem find_horizontal_asymptote_degree_law (a : RationalAnalyzer K)
    (hval : a.valid = true) :
    (degLtB a.numerator a.denominator = true →
      a.find_horizontal_asymptote = some (HAVal.val 0)) ∧
    (∀ d : Nat, degB a.numerator = some d → degB a.denominator = some d →
      a.find_horizontal_asymptote =
        some (HAVal.val (lcP a.numerator / lcP a.denominator))) ∧
    (degLtB a.denominator a.numerator = true →
      a.find_horizontal_asymptote = none) := by
  refine ⟨fun h => ?_, fun d hdn hdd => ?_, fun h => ?_⟩
  · simp [RationalAnalyzer.find_horizontal_asymptote, hval, h]
  · have hlt : degLtB a.numerator a.denominator = false := by
      simp [degLtB, hdn, hdd]
    have heq : degEqB a.numerator a.denominator = true := by
      simp [degEqB, hdn, hdd]
    have hden : trimP a.denominator ≠ [] := by
      intro hnil
      simp [degB, hnil] at hdd
    have hlc : lcP a.denominator ≠ 0 := by
      simpa [lcP] using trimP_top_ne_zero a.denominator hden
    simp [RationalAnalyzer.find_horizontal_asymptote, hval, hlt, heq, hlc]
  · rcases hn : degB a.numerator with _ | dn <;> rcases hd : degB a.denominator with _ | dd
    · exfalso; simp [degLtB, hn, hd] at h
    · exfalso; simp [degLtB, hn, hd] at h
    · have h1 : degLtB a.numerator a.denominator = false := by simp [degLtB, hn, hd]
      have h2 : degEqB a.numerator a.denominator = false := by simp [degEqB, hn, hd]
      simp [RationalAnalyzer.find_horizontal_asymptote, hval, h1, h2]
    · have hlt2 : dd < dn := by simpa [degLtB, hn, hd] using h
      have h1 : degLtB a.numerator a.denominator = false := by
        simp [degLtB, hn, hd]; omega
      have h2 : degEqB a.numerator a.denominator = false := by
        simp [degEqB, hn, hd]; omega
      simp [RationalAnalyzer.find_horizontal_asymptote, hval, h1, h2]

/-- Witness for C2 at the `x+1`, `x-2` scenario: equal degrees give the
leading-coefficient ratio 1. -/
theorem find_horizontal_asymptote_degree_law_witness :
    anEx8.valid = true ∧ anEx8.find_horizontal_asymptote = some (HAVal.val 1) := by
  have hval : anEx8.valid = true := by rw [anEx8_eq]
  refine ⟨hval, ?_⟩
  have hdn : degB anEx8.numerator = some 1 := by
    rw [anEx8_eq]; norm_num [degB, trimP, List.cons_ne_nil]
  have hdd : degB anEx8.denominator = some 1 := by
    rw [anEx8_eq]; norm_num [degB, trimP, List.cons_ne_nil]
  have h2 := (find_horizontal_asymptote_degree_law anEx8 hval).2.1 1 hdn hdd
  rw [h2]
  have hl1 : lcP anEx8.numerator = 1 := by rw [anEx8_eq]; norm_num [lcP, trimP]
  have hl2 : lcP anEx8.denominator = 1 := by rw [anEx8_eq]; norm_num [lcP, trimP]
  rw [hl1, hl2]
  norm_num

/-- C3: for every valid pair, `find_y_intercept` is absent exactly when
the denominator vanishes at 0, and otherwise returns
numerator(0)/denominator(0). -/
theorem find_y_intercept_iff (a : RationalAnalyzer K) (hval : a.valid = true) :
    (a.find_y_intercept = none ↔ evalP a.denominator 0 = 0) ∧
    (evalP a.denominator 0 ≠ 0 →
      a.find_y_intercept = some (evalP a.numerator 0 / evalP a.denominator 0)) := by
  constructor
  · by_cases h : evalP a.denominator 0 = 0 <;>
      simp [RationalAnalyzer.find_y_intercept, hval, h]
  · intro h
    simp [RationalAnalyzer.find_y_intercept, hval, h]

/-- Witness for C3 at the `x+1`, `x-2` scenario: denominator(0) = -2 is
nonzero and the y-intercept is -1/2. -/
theorem find_y_intercept_iff_witness :
    anEx8.valid = true ∧ anEx8.find_y_intercept = some (-(1 : ℚ)/2) := by
  have hval : anEx8.valid = true := by rw [anEx8_eq]
  refine ⟨hval, ?_⟩
  have hden : evalP anEx8.denominator 0 ≠ (0 : ℚ) := by
    rw [anEx8_eq]; norm_num
  rw [(find_y_intercept_iff anEx8 hval).2 hden, anEx8_eq]
  norm_num

/-- C4: for every valid function, the end-behavior computation routes
the two limit calls through one try/except handler, so whenever either
call fails the result is the pair (None, None) for both directions
jointly; the returned pair is never absent in one direction only; and
`analyze_end_behavior` is exactly that handler applied to the two limit
computations. -/
theorem analyze_end_behavior_all_or_nothing (a : RationalAnalyzer K)
    (hval : a.valid = true) :
    (∀ l1 l2 : Option (EndItem K), l1 = none ∨ l2 = none →
      endBehaviorHandler l1 l2 = (none, none)) ∧
    (a.analyze_end_behavior.1 = none ↔ a.analyze_end_behavior.2 = none) ∧
    a.analyze_end_behavior =
      endBehaviorHandler (limitAtPos a.numerator a.denominator)
        (limitAtNeg a.numerator a.denominator) := by
  refine ⟨fun l1 l2 h => ?_, ?_, ?_⟩
  · rcases l1 with _ | lp <;> rcases l2 with _ | ln <;>
      simp_all [endBehaviorHandler]
  · rcases hp : limitAtPos a.numerator a.denominator with _ | lp <;>
      rcases hn : limitAtNeg a.numerator a.denominator with _ | ln <;>
      simp [RationalAnalyzer.analyze_end_behavior, hval, endBehaviorHandler, hp, hn]
  · simp [RationalAnalyzer.analyze_end_behavior, hval]

/-- Witness for C4 at a concrete valid function and concrete handler
inputs: a failed direction collapses both to None, and the computed pair
is never half-absent. -/
theorem analyze_end_behavior_all_or_nothing_witness :
    anZeroDen.valid = true ∧
    endBehaviorHandler (none : Option (EndItem ℚ)) (some (EndItem.val 0)) =
      (none, none) ∧
    (anZeroDen.analyze_end_behavior.1 = none ↔
      anZeroDen.analyze_end_behavior.2 = none) := by
  have hval : anZeroDen.valid = true := by rw [anZeroDen_eq]
  have h := analyze_end_behavior_all_or_nothing anZeroDen hval
  exact ⟨hval, h.1 none (some (EndItem.val 0)) (Or.inl rfl), h.2.1⟩

/-- Counterexample to C5 as stated: the pair ("1", "0") parses, so the
constructed function is marked valid while the stored denominator is the
zero polynomial. -/
theorem construction_accepts_zero_denominator :
    anZeroDen.valid = true ∧ trimP anZeroDen.denominator = [] := by
  refine ⟨by rw [anZeroDen_eq], ?_⟩
  rw [anZeroDen_eq]
  norm_num [trimP]

/-- C5 (amended): construction succeeds (and records no message) exactly
when both input strings parse, and fails with a recorded message exactly
when either input string fails to parse; no exclusion of the zero
polynomial as denominator is performed. -/
theorem mkAnalyzer_valid_iff_parse (ns ds : String) :
    ((mkAnalyzer ns ds : RationalAnalyzer K).valid = true ↔
      (sympify ns : Option (List K)) ≠ none ∧
      (sympify ds : Option (List K)) ≠ none) ∧
    ((mkAnalyzer ns ds : RationalAnalyzer K).valid = false →
      (mkAnalyzer ns ds : RationalAnalyzer K).error_message =
        some "Invalid function") := by
  rcases h1 : (sympify ns : Option (List K)) with _ | np <;>
    rcases h2 : (sympify ds : Option (List K)) with _ | dp <;>
    constructor <;> simp [mkAnalyzer, h1, h2]

/-- Witness for C5 (amended) at the malformed numerator `x+`: the
construction is invalid and the message is recorded. -/
theorem mkAnalyzer_valid_iff_parse_witness :
    anBad.valid = false ∧ anBad.error_message = some "Invalid function" := by
  have h := mkAnalyzer_valid_iff_parse (K := ℚ) "x+" "x"
  have hbad : (sympify "x+" : Option (List ℚ)) = none := sympify_bad_eq
  have hv : (mkAnalyzer "x+" "x" : RationalAnalyzer ℚ).valid = false := by
    have hnt : ¬ ((mkAnalyzer "x+" "x" : RationalAnalyzer ℚ).valid = true) :=
      fun ht => (h.1.mp ht).1 hbad
    revert hnt
    cases (mkAnalyzer "x+" "x" : RationalAnalyzer ℚ).valid <;> simp
  exact ⟨hv, h.2 hv⟩

/-- C9: every query operation, run twice in succession in the
state-passing embedding, leaves the analyzer state unchanged and returns
identical results: no query mutates the stored pair. -/
theorem runQuery_idempotent_stateless (solve : List K → List K) (q : Query)
    (a : RationalAnalyzer K) :
    (runQuery solve q a).2 = a ∧
    runQuery solve q (runQuery solve q a).2 = runQuery solve q a := by
  cases q <;> exact ⟨rfl, rfl⟩

end ClaimTheoremsA

section ConcreteQueryEvaluations

theorem holesEx7 : anEx7.find_holes solveEx7 = [((1 : ℚ), 2)] := by
  rw [anEx7_eq]
  norm_num [RationalAnalyzer.find_holes, polyGcd, gcdAux, divModAux, modP, divP,
    trimP, subP, addP, negP, mulMonom, scaleC, List.replicate, List.cons_ne_nil,
    solveEx7, evalP]

theorem vaEx7 : anEx7.find_vertical_asymptotes solveEx7 = [] := by
  have hv : anEx7.valid = true := by rw [anEx7_eq]
  have hd : anEx7.denominator = [-1, 1] := by rw [anEx7_eq]
  have hh : ∀ r : ℚ, anEx7.is_hole solveEx7 r = decide (|1 - r| < holeTol ℚ) := by
    intro r
    rw [RationalAnalyzer.is_hole, holesEx7]
    simp
  rw [RationalAnalyzer.find_vertical_asymptotes]
  norm_num [hv, hd, solveEx7, hh, holeTol, sortK, insertS, abs_sub_lt_iff]

theorem xiEx7 : anEx7.find_x_intercepts solveEx7 = [-1] := by
  have hv : anEx7.valid = true := by rw [anEx7_eq]
  have hn : anEx7.numerator = [-1, 0, 1] := by rw [anEx7_eq]
  have hh : ∀ r : ℚ, anEx7.is_hole solveEx7 r = decide (|1 - r| < holeTol ℚ) := by
    intro r
    rw [RationalAnalyzer.is_hole, holesEx7]
    simp
  rw [RationalAnalyzer.find_x_intercepts]
  norm_num [hv, hn, solveEx7, hh, holeTol, sortK, insertS, abs_sub_lt_iff]

theorem yiEx7 : anEx7.find_y_intercept = some 1 := by
  rw [anEx7_eq]
  norm_num [RationalAnalyzer.find_y_intercept, evalP]

theorem holesEx8 : anEx8.find_holes solveEx8 = [] := by
  rw [anEx8_eq]
  norm_num [RationalAnalyzer.find_holes, polyGcd, gcdAux, divModAux, modP, divP,
    trimP, subP, addP, negP, mulMonom, scaleC, List.replicate, List.cons_ne_nil,
    solveEx8, evalP]

end ConcreteQueryEvaluations

section ClaimTheoremsB

variable {K : Type} [LinearOrderedField K] [DecidableEq K]

/-- C1: for every valid pair and every sound root oracle for the gcd,
every hole (x, y) returned by `find_holes` has an x-coordinate that is a
common root of the numerator and the denominator, and that x-coordinate
appears neither in `find_vertical_asymptotes` nor in
`find_x_intercepts`. -/
theorem find_holes_common_root_excluded (a : RationalAnalyzer K)
    (solve : List K → List K) (hval : a.valid = true)
    (hsolve : ∀ r : K, r ∈ solve (polyGcd a.numerator a.denominator) →
      evalP (polyGcd a.numerator a.denominator) r = 0)
    (hx hy : K) (hmem : (hx, hy) ∈ a.find_holes solve) :
    evalP a.numerator hx = 0 ∧ evalP a.denominator hx = 0 ∧
    hx ∉ a.find_vertical_asymptotes solve ∧ hx ∉ a.find_x_intercepts solve := by
  have hroot : evalP (polyGcd a.numerator a.denominator) hx = 0 :=
    hsolve hx (find_holes_mem a solve hx hy hmem)
  obtain ⟨hdn, hdd⟩ := polyGcd_dvdE a.numerator a.denominator
  have h1 : evalP a.numerator hx = 0 := dvdE_root _ _ hdn hx hroot
  have h2 : evalP a.denominator hx = 0 := dvdE_root _ _ hdd hx hroot
  have hih : a.is_hole solve hx = true := is_hole_of_mem a solve hx hy hmem
  refine ⟨h1, h2, fun hin => ?_, fun hin => ?_⟩
  · have hmm := (mem_find_vertical_asymptotes a solve hval hx).mp hin
    rw [hmm.2] at hih
    exact Bool.false_ne_true hih
  · have hmm := (mem_find_x_intercepts a solve hval hx).mp hin
    rw [hmm.2] at hih
    exact Bool.false_ne_true hih

/-- Witness for C1 at the `x**2-1`, `x-1` scenario and its hole (1, 2). -/
theorem find_holes_common_root_excluded_witness :
    anEx7.valid = true ∧
    (evalP anEx7.numerator 1 = 0 ∧ evalP anEx7.denominator 1 = 0 ∧
      (1 : ℚ) ∉ anEx7.find_vertical_asymptotes solveEx7 ∧
      (1 : ℚ) ∉ anEx7.find_x_intercepts solveEx7) := by
  have hval : anEx7.valid = true := by rw [anEx7_eq]
  have hg : polyGcd anEx7.numerator anEx7.denominator = [-1, 1] := by
    rw [anEx7_eq]
    norm_num [polyGcd, gcdAux, divModAux, modP, trimP, subP, addP, negP,
      mulMonom, scaleC, List.replicate, List.cons_ne_nil]
  have hsolve : ∀ r : ℚ, r ∈ solveEx7 (polyGcd anEx7.numerator anEx7.denominator) →
      evalP (polyGcd anEx7.numerator anEx7.denominator) r = 0 := by
    intro r hr
    rw [hg] at hr ⊢
    have hr2 : r = 1 := by simpa [solveEx7] using hr
    rw [hr2]
    norm_num [evalP]
  have hmem : ((1 : ℚ), 2) ∈ anEx7.find_holes solveEx7 := by
    rw [holesEx7]
    simp
  exact ⟨hval, find_holes_common_root_excluded anEx7 solveEx7 hval hsolve 1 2 hmem⟩

/-- C6: for every pair of input strings where either string fails to
parse, the constructed object is marked invalid, every query returns its
empty or absent form, and the analysis summary carries only an error
string. -/
theorem invalid_parse_all_queries_empty (ns ds : String)
    (solve : List K → List K)
    (h : (sympify ns : Option (List K)) = none ∨
      (sympify ds : Option (List K)) = none) :
    (mkAnalyzer ns ds : RationalAnalyzer K).valid = false ∧
    (mkAnalyzer ns ds : RationalAnalyzer K).find_vertical_asymptotes solve = [] ∧
    (mkAnalyzer ns ds : RationalAnalyzer K).find_horizontal_asymptote = none ∧
    (mkAnalyzer ns ds : RationalAnalyzer K).find_holes solve = [] ∧
    (mkAnalyzer ns ds : RationalAnalyzer K).find_x_intercepts solve = [] ∧
    (mkAnalyzer ns ds : RationalAnalyzer K).find_y_intercept = none ∧
    (mkAnalyzer ns ds : RationalAnalyzer K).analyze_end_behavior = (none, none) ∧
    (mkAnalyzer ns ds : RationalAnalyzer K).get_analysis_summary solve =
      Summary.err "Invalid function" := by
  have hA := mkAnalyzer_invalid ns ds h
  rw [hA]
  refine ⟨rfl, ?_, ?_, ?_, ?_, ?_, ?_, ?_⟩ <;>
    simp [RationalAnalyzer.find_vertical_asymptotes,
      RationalAnalyzer.find_horizontal_asymptote, RationalAnalyzer.find_holes,
      RationalAnalyzer.find_x_intercepts, RationalAnalyzer.find_y_intercept,
      RationalAnalyzer.analyze_end_behavior, RationalAnalyzer.get_analysis_summary]

/-- Witness for C6 at the malformed numerator `x+`. -/
theorem invalid_parse_all_queries_empty_witness :
    anBad.valid = false ∧
    anBad.get_analysis_summary (fun _ => []) = Summary.err "Invalid function" := by
  have h := invalid_parse_all_queries_empty (K := ℚ) "x+" "x" (fun _ => [])
    (Or.inl sympify_bad_eq)
  exact ⟨h.1, h.2.2.2.2.2.2.2⟩

/-- C7: for numerator `x**2-1` and denominator `x-1` (with the root
oracle matching sympy on the queried polynomials) the analysis yields
holes = [(1, 2)], vertical asymptotes = [], x-intercepts = [-1] (x = 1
excluded as a hole), and y-intercept = 1. -/
theorem scenario_x_squared_minus_one_over_x_minus_one :
    anEx7.find_holes solveEx7 = [((1 : ℚ), 2)] ∧
    anEx7.find_vertical_asymptotes solveEx7 = [] ∧
    anEx7.find_x_intercepts solveEx7 = [-1] ∧
    anEx7.find_y_intercept = some 1 :=
  ⟨holesEx7, vaEx7, xiEx7, yiEx7⟩

/-- C8: for numerator `x+1` and denominator `x-2` (with the root oracle
matching sympy on the queried polynomials) the analysis summary is
vertical_asymptotes = [2], horizontal_asymptote = 1, holes = [],
x_intercepts = [-1], y_intercept = -1/2, end_behavior = (1, 1). -/
theorem scenario_x_plus_one_over_x_minus_two :
    anEx8.get_analysis_summary solveEx8 =
      Summary.ok [2] (some (HAVal.val 1)) [] [-1] (some (-(1 : ℚ)/2))
        (some (EndItem.val 1), some (EndItem.val 1)) := by
  have hv : anEx8.valid = true := by rw [anEx8_eq]
  have hh : ∀ r : ℚ, anEx8.is_hole solveEx8 r = false := by
    intro r
    rw [RationalAnalyzer.is_hole, holesEx8]
    simp
  have hva : anEx8.find_vertical_asymptotes solveEx8 = [2] := by
    have hd : anEx8.denominator = [-2, 1] := by rw [anEx8_eq]
    rw [RationalAnalyzer.find_vertical_asymptotes]
    norm_num [hv, hd, solveEx8, hh, sortK, insertS]
  have hxi : anEx8.find_x_intercepts solveEx8 = [-1] := by
    have hn : anEx8.numerator = [1, 1] := by rw [anEx8_eq]
    rw [RationalAnalyzer.find_x_intercepts]
    norm_num [hv, hn, solveEx8, hh, sortK, insertS]
  have hha : anEx8.find_horizontal_asymptote = some (HAVal.val 1) := by
    rw [anEx8_eq]
    norm_num [RationalAnalyzer.find_horizontal_asymptote, degLtB, degEqB, degB,
      lcP, trimP, List.cons_ne_nil]
  have hyi : anEx8.find_y_intercept = some (-(1 : ℚ)/2) := by
    rw [anEx8_eq]
    norm_num [RationalAnalyzer.find_y_intercept, evalP]
  have heb : anEx8.analyze_end_behavior =
      (some (EndItem.val 1), some (EndItem.val 1)) := by
    rw [anEx8_eq]
    norm_num [RationalAnalyzer.analyze_end_behavior, endBehaviorHandler,
      limitAtPos, limitAtNeg, trimP, lcP, List.cons_ne_nil]
  rw [RationalAnalyzer.get_analysis_summary]
  norm_num [hv, hva, hha, holesEx8, hxi, hyi, heb]

/-- C10: for every valid function, a root the oracle reports for the
denominator is omitted from `find_vertical_asymptotes` exactly when some
returned hole is within 1e-10 of it, `find_x_intercepts` omits oracle
roots of the numerator by the same tolerance test, and when `find_holes`
returns the empty list no root is excluded from either query. -/
theorem root_exclusion_by_hole_tolerance (a : RationalAnalyzer K)
    (solve : List K → List K) (hval : a.valid = true) (r : K) :
    (r ∈ solve a.denominator →
      (r ∉ a.find_vertical_asymptotes solve ↔
        ∃ hole ∈ a.find_holes solve, |hole.1 - r| < holeTol K)) ∧
    (r ∈ solve a.numerator →
      (r ∉ a.find_x_intercepts solve ↔
        ∃ hole ∈ a.find_holes solve, |hole.1 - r| < holeTol K)) ∧
    (a.find_holes solve = [] →
      a.find_vertical_asymptotes solve = sortK (solve a.denominator) ∧
      a.find_x_intercepts solve = sortK (solve a.numerator)) := by
  refine ⟨fun hr => ?_, fun hr => ?_, fun hnil => ?_⟩
  · rw [← is_hole_iff]
    constructor
    · intro hni
      cases hb : a.is_hole solve r with
      | false => exact absurd ((mem_find_vertical_asymptotes a solve hval r).mpr
          ⟨hr, hb⟩) hni
      | true => rfl
    · intro hih hin
      have hmm := (mem_find_vertical_asymptotes a solve hval r).mp hin
      rw [hmm.2] at hih
      exact Bool.false_ne_true hih
  · rw [← is_hole_iff]
    constructor
    · intro hni
      cases hb : a.is_hole solve r with
      | false => exact absurd ((mem_find_x_intercepts a solve hval r).mpr
          ⟨hr, hb⟩) hni
      | true => rfl
    · intro hih hin
      have hmm := (mem_find_x_intercepts a solve hval r).mp hin
      rw [hmm.2] at hih
      exact Bool.false_ne_true hih
  · have hfalse : ∀ x : K, a.is_hole solve x = false := by
      intro x
      rw [RationalAnalyzer.is_hole, hnil]
      rfl
    constructor
    · simp [RationalAnalyzer.find_vertical_asymptotes, hval, hfalse]
    · simp [RationalAnalyzer.find_x_intercepts, hval, hfalse]

/-- Witness for C10 at the `x+1`, `x-2` scenario: the hole list is empty
and no root is excluded from either query. -/
theorem root_exclusion_by_hole_tolerance_witness :
    anEx8.valid = true ∧
    anEx8.find_vertical_asymptotes solveEx8 = sortK (solveEx8 anEx8.denominator) ∧
    anEx8.find_x_intercepts solveEx8 = sortK (solveEx8 anEx8.numerator) := by
  have hval : anEx8.valid = true := by rw [anEx8_eq]
  exact ⟨hval,
    (root_exclusion_by_hole_tolerance anEx8 solveEx8 hval 0).2.2 holesEx8⟩

end ClaimTheoremsB
